import Mathlib

/-!
Verification of the fluentcpp query pipeline (`src/query.h`, `src/asserts.h`,
`src/transforms.h`) against its natural-language specification.

The pipeline stage `fcpp::Queryable<T>` owns a `std::vector<T>`; every
operation consumes the stage and produces a fresh one. We embed the owned
vector as a `List` and each operation as a function on lists. Operations
guarded by `asserts::invariant` (which throws `std::invalid_argument` when the
condition is false) are embedded as `Except String` valued functions: the
`.error` constructor models the raised invariant violation, `.ok` the new
stage's sequence. Randomized operations are parameterized by the outcome of
their `std::shuffle` call. `std::sort` (used by `order_by`) guarantees only a
permutation ordered by the comparator, so `order_by` is embedded relationally
by that postcondition. `size_t` arithmetic is modelled as `Nat` arithmetic
modulo `2 ^ 64` where wraparound can occur (`trim`).
-/

namespace fcpp

/-- Modulus of `size_t` arithmetic (64-bit target). -/
def usizeMod : Nat := 2 ^ 64

/-- Discriminates the embedded result of an invariant-guarded operation:
`true` exactly when the C++ call would throw the invariant violation. -/
def raises {ε γ : Type} : Except ε γ → Bool
  | .error _ => true
  | .ok _ => false

/-- Embeds `Queryable<T>::where` (query.h:1081-1090): `std::copy_if` of the
items satisfying the predicate, in order. -/
def whereQ {α : Type} (p : α → Bool) (s : List α) : List α :=
  s.filter p

/-- Embeds `Queryable<T>::select` (query.h:905-917): `std::transform` of every
item, preserving order and count. -/
def select {α β : Type} (f : α → β) (s : List α) : List β :=
  s.map f

/-- Embeds `Queryable<T>::skip` (query.h:931-940): guard `value <= size()`,
then the items from index `value` to the end. -/
def skip {α : Type} (n : Nat) (s : List α) : Except String (List α) :=
  if n ≤ s.length then
    .ok (s.drop n)
  else
    .error "Skip value must be less than or equal to sequence size."

/-- Embeds `Queryable<T>::take` (query.h:973-982): guard `value <= size()`,
then the first `value` items. -/
def take {α : Type} (n : Nat) (s : List α) : Except String (List α) :=
  if n ≤ s.length then
    .ok (s.take n)
  else
    .error "Take value must be less than or equal to sequence size."

/-- Embeds `Queryable<T>::take_random` (query.h:984-1006). The guard
`value <= size()` is checked first; then the code shuffles the index list
`[0, size)`, truncates it to `value` entries and maps each index through the
vector. The shuffle outcome is a parameter `indices` (the code gives no
reproducibility guarantee), and the indexing `items_[i]` is embedded with the
partial lookup `s[i]?` (the real indices are in range by construction). -/
def take_random {α : Type} (indices : List Nat) (n : Nat) (s : List α) :
    Except String (List α) :=
  if n ≤ s.length then
    .ok ((indices.take n).filterMap (fun i => s[i]?))
  else
    .error "Take random value must be less than or equal to sequence size."

/-- Embeds `std::vector<T>::resize(m)` with default value `d`: truncate to the
first `m` items when shrinking, pad with `d` when growing. -/
def vecResize {α : Type} (s : List α) (m : Nat) (d : α) : List α :=
  if m ≤ s.length then s.take m else s ++ List.replicate (m - s.length) d

/-- Embeds `Queryable<T>::trim` (query.h:1055-1063) as written: the guard is
`items_.size() <= size` (throwing when the current size exceeds the argument),
followed by `items_.resize(items_.size() - size)` where the subtraction is
`size_t` arithmetic, i.e. `(length + 2^64 - n) % 2^64` for `n < 2^64`. -/
def trim {α : Type} (n : Nat) (s : List α) (d : α) : Except String (List α) :=
  if s.length ≤ n then
    .ok (vecResize s ((s.length + usizeMod - n) % usizeMod) d)
  else
    .error "Size must be less than or equal to sequence size."

/-- Embeds `Queryable<T>::zip` (query.h:1092-1131): pair positionally up to the
shorter length; if `truncate` is false, pad the exhausted side with the
default-constructed values `dA` (for `T()`) and `dB` (for `U()`) until the
longer side is exhausted. -/
def zip {α β : Type} (lhs : List α) (rhs : List β) (truncate : Bool)
    (dA : α) (dB : β) : List (α × β) :=
  let core := List.zip lhs rhs
  if truncate then core
  else if rhs.length < lhs.length then
    core ++ (lhs.drop rhs.length).map (fun a => (a, dB))
  else
    core ++ (rhs.drop lhs.length).map (fun b => (dA, b))

/-- Embeds `Queryable<T>::branch` (query.h:1296-1312): one pass over the items
in order, pushing each onto the true partition when the predicate holds and
onto the false partition otherwise. -/
def branch {α : Type} (p : α → Bool) : List α → List α × List α
  | [] => ([], [])
  | x :: xs =>
    let rest := branch p xs
    if p x then (x :: rest.1, rest.2) else (rest.1, x :: rest.2)

/-- Embeds `WhenTrue<T>::when_true` (query.h:1278-1289): apply the true-branch
query to the true partition, keep the raw false partition. -/
def when_true {α γ : Type} (q : List α → List γ) (parts : List α × List α) :
    List γ × List α :=
  (q parts.1, parts.2)

/-- Embeds `WhenFalse<...>::when_false` (query.h:1223-1235): keep the already
transformed true partition, apply the false-branch query to the false
partition. -/
def when_false {α γ δ : Type} (q : List α → List δ) (st : List γ × List α) :
    List γ × List δ :=
  (st.1, q st.2)

/-- Embeds `Merge<TrueT, FalseT>::merge` (query.h:1175-1177): zip the two
transformed partitions under the given truncate flag. -/
def merge {γ δ : Type} (st : List γ × List δ) (truncate : Bool)
    (dG : γ) (dD : δ) : List (γ × δ) :=
  zip st.1 st.2 truncate dG dD

/-- Embeds insertion into a `std::set<T>` represented as its strictly
ascending element list: place the new element at its ordered position, drop it
when an equivalent element is already present. -/
def setInsert {α : Type} [LinearOrder α] (x : α) : List α → List α
  | [] => [x]
  | b :: l => if x < b then x :: b :: l else if b < x then b :: setInsert x l else b :: l

/-- Embeds `Queryable<T>::distinct` (query.h:678-688) composed with
`transforms::to_vector` (transforms.h:6-14): insert every item into a
`std::set<T>` and read the set back in its ascending iteration order. -/
def distinct {α : Type} [LinearOrder α] (s : List α) : List α :=
  s.foldl (fun acc x => setInsert x acc) []

/-- Loop of `std::max_element` with comparator `sel lhs < sel rhs`
(query.h:824-840): start from the first element and replace the current best
only on strict increase, so the first of equal maxima is kept. -/
def maxFold {α β : Type} [LinearOrder β] (sel : α → β) (acc : α)
    (xs : List α) : α :=
  xs.foldl (fun a y => if sel a < sel y then y else a) acc

/-- Loop of `std::min_element` with comparator `sel lhs < sel rhs`
(query.h:855-871): start from the first element and replace the current best
only on strict decrease, so the first of equal minima is kept. -/
def minFold {α β : Type} [LinearOrder β] (sel : α → β) (acc : α)
    (xs : List α) : α :=
  xs.foldl (fun a y => if sel y < sel a then y else a) acc

/-- Embeds `Queryable<T>::max` (query.h:811-840): guard `!items_.empty()`,
then `std::max_element` under the selector comparator. The selector-less
overload (query.h:811-822) is the instance `sel := id` since the default
`std::max_element` comparison is the same `<`. -/
def maxQ {α β : Type} [LinearOrder β] (sel : α → β) (s : List α) :
    Except String α :=
  match s with
  | [] => .error "Sequence cannot be empty."
  | x :: xs => .ok (maxFold sel x xs)

/-- Embeds `Queryable<T>::min` (query.h:842-871): guard `!items_.empty()`,
then `std::min_element` under the selector comparator. The selector-less
overload is the instance `sel := id`. -/
def minQ {α β : Type} [LinearOrder β] (sel : α → β) (s : List α) :
    Except String α :=
  match s with
  | [] => .error "Sequence cannot be empty."
  | x :: xs => .ok (minFold sel x xs)

/-- Comparator passed to `std::sort` by `Queryable<T>::order_by`
(query.h:888-894): `descending ? lhs_value > rhs_value : lhs_value <
rhs_value` on the selected values. -/
def orderByLt {α β : Type} [LinearOrder β] (sel : α → β) (descending : Bool)
    (a b : α) : Bool :=
  if descending then decide (sel b < sel a) else decide (sel a < sel b)

/-- Relational embedding of `Queryable<T>::order_by` (query.h:873-897). The
body is a single `std::sort(items_, comp)`; the C++ standard guarantees only
that the output is a permutation of the input that is sorted with respect to
`comp` (for positions `i < j`, `comp(out[j], out[i])` is false) and leaves the
relative order of equivalent elements unspecified. `orderByAdmissible sel
descending inp out` holds exactly for the outputs `std::sort` is permitted to
produce. -/
def orderByAdmissible {α β : Type} [LinearOrder β] (sel : α → β)
    (descending : Bool) (inp out : List α) : Prop :=
  inp.Perm out ∧ out.Pairwise (fun a b => orderByLt sel descending b a = false)

/-- Insertion step of a stable insertion sort with a boolean `should go
before or at` comparator: the new element passes every element it must follow
and stops before the first element it may precede. -/
def stableInsert {α : Type} (le : α → α → Bool) (x : α) : List α → List α
  | [] => [x]
  | b :: l => if le x b then x :: b :: l else b :: stableInsert le x l

/-- Stable insertion sort with a boolean comparator. -/
def stableSortL {α : Type} (le : α → α → Bool) : List α → List α
  | [] => []
  | x :: l => stableInsert le x (stableSortL le l)

/-- Modelled from the spec: "stable sort by selected value; ties preserve
original relative order" — a stable sort under the `order_by` comparator, for
comparison against the relational embedding of the source's `std::sort`. An
earlier element `x` is placed before a later element `b` exactly when the
comparator does not order `b` strictly before `x`. -/
def stable_order_by {α β : Type} [LinearOrder β] (sel : α → β)
    (descending : Bool) (l : List α) : List α :=
  stableSortL (fun a b => !(orderByLt sel descending b a)) l

/-- States that `out` keeps the tied items of `inp` in their original relative
order: for every selected value `k`, the items selecting to `k` appear in
`out` exactly as they appear in `inp`. -/
def stableTies {α β : Type} [DecidableEq β] (sel : α → β)
    (inp out : List α) : Prop :=
  ∀ k : β, out.filter (fun x => decide (sel x = k)) =
    inp.filter (fun x => decide (sel x = k))

/-- Embeds `std::equal(lhs.items_.begin(), lhs.items_.end(), rhs.begin())`
(query.h:215-217 and 226-228): walk the left sequence, comparing positionally
against the right sequence; the right sequence's length is never consulted.
(When the right sequence is shorter the C++ call reads past its end, which is
undefined; the embedding returns `false` on that exhausted case.) -/
def stdEqual {α : Type} [DecidableEq α] : List α → List α → Bool
  | [], _ => true
  | _ :: _, [] => false
  | a :: as, b :: bs => decide (a = b) && stdEqual as bs

/-- Embeds `operator==(const Queryable<T>&, const std::vector<T>&)`
(query.h:215-217). -/
def queryableEqVector {α : Type} [DecidableEq α] (lhs rhs : List α) : Bool :=
  stdEqual lhs rhs

/-- Embeds `operator==(const Queryable<T>&, const Queryable<T>&)`
(query.h:226-228): the same positional `std::equal` over the two stages'
internal vectors. -/
def queryableEqQueryable {α : Type} [DecidableEq α] (lhs rhs : List α) :
    Bool :=
  stdEqual lhs rhs

end fcpp

namespace fcpp

/-! Helper lemmas. -/

theorem branch_eq_filter {α : Type} (p : α → Bool) (s : List α) :
    branch p s = (s.filter p, s.filter (fun x => !p x)) := by
  induction s with
  | nil => rfl
  | cons x xs ih =>
    simp only [branch, ih, List.filter_cons]
    cases h : p x <;> simp [h]

theorem stdEqual_append {α : Type} [DecidableEq α] (lhs t : List α) :
    stdEqual lhs (lhs ++ t) = true := by
  induction lhs with
  | nil => rfl
  | cons a as ih => simp [stdEqual, ih]

theorem mem_setInsert {α : Type} [LinearOrder α] (a x : α) :
    ∀ l : List α, a ∈ setInsert x l ↔ a = x ∨ a ∈ l
  | [] => by simp [setInsert]
  | b :: l => by
    simp only [setInsert]
    by_cases h1 : x < b
    · simp only [if_pos h1, List.mem_cons]
    · by_cases h2 : b < x
      · simp only [if_neg h1, if_pos h2, List.mem_cons, mem_setInsert a x l]
        tauto
      · have hxb : x = b := le_antisymm (le_of_not_lt h2) (le_of_not_lt h1)
        rw [if_neg h1, if_neg h2]
        subst hxb
        simp only [List.mem_cons]
        tauto

theorem setInsert_pairwise {α : Type} [LinearOrder α] (x : α) :
    ∀ l : List α, l.Pairwise (· < ·) → (setInsert x l).Pairwise (· < ·)
  | [], _ => by simp [setInsert]
  | b :: l, h => by
    rw [List.pairwise_cons] at h
    obtain ⟨hb, hl⟩ := h
    simp only [setInsert]
    by_cases h1 : x < b
    · rw [if_pos h1]
      refine List.Pairwise.cons ?_ (List.Pairwise.cons hb hl)
      intro y hy
      rcases List.mem_cons.mp hy with rfl | hy'
      · exact h1
      · exact lt_trans h1 (hb y hy')
    · by_cases h2 : b < x
      · rw [if_neg h1, if_pos h2]
        refine List.Pairwise.cons ?_ (setInsert_pairwise x l hl)
        intro y hy
        rcases (mem_setInsert y x l).mp hy with rfl | hy'
        · exact h2
        · exact hb y hy'
      · rw [if_neg h1, if_neg h2]
        exact List.Pairwise.cons hb hl

theorem foldl_setInsert_pairwise {α : Type} [LinearOrder α] :
    ∀ (s acc : List α), acc.Pairwise (· < ·) →
      (s.foldl (fun ac x => setInsert x ac) acc).Pairwise (· < ·)
  | [], _, h => h
  | y :: ys, acc, h => by
    rw [List.foldl_cons]
    exact foldl_setInsert_pairwise ys _ (setInsert_pairwise y acc h)

theorem mem_foldl_setInsert {α : Type} [LinearOrder α] :
    ∀ (s acc : List α) (a : α),
      a ∈ s.foldl (fun ac x => setInsert x ac) acc ↔ a ∈ acc ∨ a ∈ s
  | [], acc, a => by simp
  | y :: ys, acc, a => by
    rw [List.foldl_cons, mem_foldl_setInsert ys _ a, mem_setInsert a y acc]
    simp only [List.mem_cons]
    tauto

theorem maxFold_spec {α β : Type} [LinearOrder β] (sel : α → β) :
    ∀ (xs : List α) (acc : α),
      (maxFold sel acc xs = acc ∧ ∀ y ∈ xs, sel y ≤ sel acc) ∨
      (∃ pre post, xs = pre ++ maxFold sel acc xs :: post ∧
        sel acc < sel (maxFold sel acc xs) ∧
        (∀ y ∈ pre, sel y < sel (maxFold sel acc xs)) ∧
        (∀ y ∈ post, sel y ≤ sel (maxFold sel acc xs)))
  | [], acc => Or.inl ⟨rfl, by simp⟩
  | z :: zs, acc => by
    have hstep : maxFold sel acc (z :: zs) =
        maxFold sel (if sel acc < sel z then z else acc) zs := rfl
    by_cases h : sel acc < sel z
    · rw [hstep, if_pos h]
      rcases maxFold_spec sel zs z with ⟨heq, hall⟩ |
        ⟨pre, post, heq, hlt, hpre, hpost⟩
      · refine Or.inr ⟨[], zs, ?_, ?_, by simp, ?_⟩
        · rw [heq]
          rfl
        · rw [heq]
          exact h
        · simp only [heq]
          exact hall
      · refine Or.inr ⟨z :: pre, post, ?_, lt_trans h hlt, ?_, hpost⟩
        · rw [List.cons_append, ← heq]
        · intro y hy
          rcases List.mem_cons.mp hy with rfl | hy'
          · exact hlt
          · exact hpre y hy'
    · rw [hstep, if_neg h]
      rcases maxFold_spec sel zs acc with ⟨heq, hall⟩ |
        ⟨pre, post, heq, hlt, hpre, hpost⟩
      · refine Or.inl ⟨heq, ?_⟩
        intro y hy
        rcases List.mem_cons.mp hy with rfl | hy'
        · exact le_of_not_lt h
        · exact hall y hy'
      · refine Or.inr ⟨z :: pre, post, ?_, hlt, ?_, hpost⟩
        · rw [List.cons_append, ← heq]
        · intro y hy
          rcases List.mem_cons.mp hy with rfl | hy'
          · exact lt_of_le_of_lt (le_of_not_lt h) hlt
          · exact hpre y hy'

theorem minFold_spec {α β : Type} [LinearOrder β] (sel : α → β) :
    ∀ (xs : List α) (acc : α),
      (minFold sel acc xs = acc ∧ ∀ y ∈ xs, sel acc ≤ sel y) ∨
      (∃ pre post, xs = pre ++ minFold sel acc xs :: post ∧
        sel (minFold sel acc xs) < sel acc ∧
        (∀ y ∈ pre, sel (minFold sel acc xs) < sel y) ∧
        (∀ y ∈ post, sel (minFold sel acc xs) ≤ sel y))
  | [], acc => Or.inl ⟨rfl, by simp⟩
  | z :: zs, acc => by
    have hstep : minFold sel acc (z :: zs) =
        minFold sel (if sel z < sel acc then z else acc) zs := rfl
    by_cases h : sel z < sel acc
    · rw [hstep, if_pos h]
      rcases minFold_spec sel zs z with ⟨heq, hall⟩ |
        ⟨pre, post, heq, hlt, hpre, hpost⟩
      · refine Or.inr ⟨[], zs, ?_, ?_, by simp, ?_⟩
        · rw [heq]
          rfl
        · rw [heq]
          exact h
        · simp only [heq]
          exact hall
      · refine Or.inr ⟨z :: pre, post, ?_, lt_trans hlt h, ?_, hpost⟩
        · rw [List.cons_append, ← heq]
        · intro y hy
          rcases List.mem_cons.mp hy with rfl | hy'
          · exact hlt
          · exact hpre y hy'
    · rw [hstep, if_neg h]
      rcases minFold_spec sel zs acc with ⟨heq, hall⟩ |
        ⟨pre, post, heq, hlt, hpre, hpost⟩
      · refine Or.inl ⟨heq, ?_⟩
        intro y hy
        rcases List.mem_cons.mp hy with rfl | hy'
        · exact le_of_not_lt h
        · exact hall y hy'
      · refine Or.inr ⟨z :: pre, post, ?_, hlt, ?_, hpost⟩
        · rw [List.cons_append, ← heq]
        · intro y hy
          rcases List.mem_cons.mp hy with rfl | hy'
          · exact lt_of_lt_of_le hlt (le_of_not_lt h)
          · exact hpre y hy'

theorem mem_stableInsert {α : Type} (le : α → α → Bool) (a x : α) :
    ∀ l : List α, a ∈ stableInsert le x l ↔ a = x ∨ a ∈ l
  | [] => by simp [stableInsert]
  | b :: l => by
    simp only [stableInsert]
    by_cases h : le x b = true
    · simp only [if_pos h, List.mem_cons]
    · simp only [if_neg h, List.mem_cons, mem_stableInsert le a x l]
      tauto

theorem stableInsert_perm {α : Type} (le : α → α → Bool) (x : α) :
    ∀ l : List α, (stableInsert le x l).Perm (x :: l)
  | [] => List.Perm.refl _
  | b :: l => by
    simp only [stableInsert]
    by_cases h : le x b = true
    · rw [if_pos h]
    · rw [if_neg h]
      exact ((stableInsert_perm le x l).cons b).trans (List.Perm.swap x b l)

theorem stableSortL_perm {α : Type} (le : α → α → Bool) :
    ∀ l : List α, (stableSortL le l).Perm l
  | [] => List.Perm.refl _
  | x :: l => by
    rw [stableSortL]
    exact (stableInsert_perm le x (stableSortL le l)).trans
      ((stableSortL_perm le l).cons x)

theorem stableInsert_pairwise {α : Type} (le : α → α → Bool)
    (total : ∀ a b, le a b = true ∨ le b a = true)
    (htrans : ∀ a b c, le a b = true → le b c = true → le a c = true) (x : α) :
    ∀ l : List α, l.Pairwise (fun a b => le a b = true) →
      (stableInsert le x l).Pairwise (fun a b => le a b = true)
  | [], _ => by simp [stableInsert]
  | b :: l, h => by
    rw [List.pairwise_cons] at h
    obtain ⟨hb, hl⟩ := h
    simp only [stableInsert]
    by_cases hxb : le x b = true
    · rw [if_pos hxb]
      refine List.Pairwise.cons ?_ (List.Pairwise.cons hb hl)
      intro y hy
      rcases List.mem_cons.mp hy with rfl | hy'
      · exact hxb
      · exact htrans x b y hxb (hb y hy')
    · rw [if_neg hxb]
      have hbx : le b x = true := (total x b).resolve_left hxb
      refine List.Pairwise.cons ?_
        (stableInsert_pairwise le total htrans x l hl)
      intro y hy
      rcases (mem_stableInsert le y x l).mp hy with rfl | hy'
      · exact hbx
      · exact hb y hy'

theorem stableSortL_pairwise {α : Type} (le : α → α → Bool)
    (total : ∀ a b, le a b = true ∨ le b a = true)
    (htrans : ∀ a b c, le a b = true → le b c = true → le a c = true) :
    ∀ l : List α, (stableSortL le l).Pairwise (fun a b => le a b = true)
  | [] => List.Pairwise.nil
  | x :: l => by
    rw [stableSortL]
    exact stableInsert_pairwise le total htrans x (stableSortL le l)
      (stableSortL_pairwise le total htrans l)

theorem orderByLt_false_iff {α β : Type} [LinearOrder β] (sel : α → β) :
    ∀ (descending : Bool) (a b : α),
      (orderByLt sel descending a b = false ↔
        if descending then sel a ≤ sel b else sel b ≤ sel a)
  | false, a, b => by simp [orderByLt, not_lt]
  | true, a, b => by simp [orderByLt, not_lt]

theorem orderByLe_total {α β : Type} [LinearOrder β] (sel : α → β)
    (descending : Bool) (a b : α) :
    (!orderByLt sel descending b a) = true ∨
      (!orderByLt sel descending a b) = true := by
  cases descending <;> simp [orderByLt, not_lt] <;> exact le_total _ _

theorem orderByLe_trans {α β : Type} [LinearOrder β] (sel : α → β)
    (descending : Bool) (a b c : α)
    (hab : (!orderByLt sel descending b a) = true)
    (hbc : (!orderByLt sel descending c b) = true) :
    (!orderByLt sel descending c a) = true := by
  cases descending <;> simp [orderByLt, not_lt] at hab hbc ⊢
  · exact le_trans hab hbc
  · exact le_trans hbc hab

end fcpp

namespace fcpp

/-! Claim theorems. -/

/-- Claim C2: Skip/Take complement — for every sequence `S` and every `n` with
`0 ≤ n ≤ size S`, `take n` succeeds with the first `n` items, `skip n`
succeeds with the remaining items, and concatenating `take n`'s result with
`skip n`'s result reconstructs `S` exactly. -/
theorem skip_take_complement {α : Type} (s : List α) (n : Nat)
    (h : n ≤ s.length) :
    take n s = .ok (s.take n) ∧ skip n s = .ok (s.drop n) ∧
      s.take n ++ s.drop n = s := by
  refine ⟨?_, ?_, List.take_append_drop n s⟩ <;> simp [take, skip, h]

/-- Witness for C2 at `S = [1, 2, 3]`, `n = 2`. -/
theorem skip_take_complement_witness :
    2 ≤ ([1, 2, 3] : List Int).length ∧
      (take 2 ([1, 2, 3] : List Int) = .ok [1, 2] ∧
        skip 2 ([1, 2, 3] : List Int) = .ok [3] ∧
        ([1, 2, 3] : List Int).take 2 ++ ([1, 2, 3] : List Int).drop 2 =
          [1, 2, 3]) :=
  ⟨by decide, skip_take_complement [1, 2, 3] 2 (by decide)⟩

/-- Claim C9: `where` is idempotent and order-preserving — applying the same
predicate twice yields the same sequence as applying it once, and the output
is a sublist of the input (the surviving items keep their original relative
order). -/
theorem where_idempotent_order_preserving {α : Type} (p : α → Bool)
    (s : List α) :
    whereQ p (whereQ p s) = whereQ p s ∧ List.Sublist (whereQ p s) s := by
  constructor
  · simp only [whereQ]
    exact List.filter_eq_self.mpr fun a ha => List.of_mem_filter ha
  · exact List.filter_sublist s

/-- Claim C6: Zip truncate laws — `zip` with `truncate = true` has length
`min` of the two lengths, with `truncate = false` it has length `max`, and on
`[1,2,3,4]` and `[5,6,7,8,9]` it yields `[(1,5),(2,6),(3,7),(4,8)]`
(truncated) and the same pairs plus `(0, 9)` (padded with the
default-constructed `int`, which is `0`). -/
theorem zip_truncate_laws :
    (∀ (α β : Type) (lhs : List α) (rhs : List β) (dA : α) (dB : β),
      (zip lhs rhs true dA dB).length = min lhs.length rhs.length ∧
        (zip lhs rhs false dA dB).length = max lhs.length rhs.length) ∧
      zip ([1, 2, 3, 4] : List Int) ([5, 6, 7, 8, 9] : List Int) true 0 0 =
        [(1, 5), (2, 6), (3, 7), (4, 8)] ∧
      zip ([1, 2, 3, 4] : List Int) ([5, 6, 7, 8, 9] : List Int) false 0 0 =
        [(1, 5), (2, 6), (3, 7), (4, 8), (0, 9)] := by
  refine ⟨fun α β lhs rhs dA dB => ⟨?_, ?_⟩, by decide, by decide⟩
  · simp [zip]
  · simp only [zip]
    by_cases h : rhs.length < lhs.length <;>
      simp [h, List.length_zip] <;> omega

/-- Claim C1: Branch/merge round trip — `branch` partitions into the matched
and unmatched items each preserving the original relative order (both are
sublists of the input, equal to the corresponding filters); `merge` with
`truncate = false` after the two branch transforms zips the two transformed
partitions positionally; and on `[1,2,3,4]` with predicate `x % 2 == 0`,
true-branch transform `x - 1` and false-branch transform `x + 1`, the merged
result is `[(1,2),(3,4)]`. -/
theorem branch_merge_round_trip :
    (∀ (α : Type) (p : α → Bool) (s : List α),
      List.Sublist (branch p s).1 s ∧ List.Sublist (branch p s).2 s ∧
        (branch p s).1 = s.filter p ∧
        (branch p s).2 = s.filter (fun x => !p x)) ∧
    (∀ (α γ δ : Type) (p : α → Bool) (s : List α) (qt : List α → List γ)
        (qf : List α → List δ) (dG : γ) (dD : δ),
      merge (when_false qf (when_true qt (branch p s))) false dG dD =
        zip (qt (s.filter p)) (qf (s.filter (fun x => !p x))) false dG dD) ∧
    merge
        (when_false (fun l => l.map (fun x => x + 1))
          (when_true (fun l => l.map (fun x => x - 1))
            (branch (fun x => decide (x % 2 = 0)) ([1, 2, 3, 4] : List Int))))
        false 0 0 =
      [(1, 2), (3, 4)] := by
  refine ⟨fun α p s => ?_, fun α γ δ p s qt qf dG dD => ?_, by decide⟩
  · rw [branch_eq_filter]
    exact ⟨List.filter_sublist s, List.filter_sublist s, rfl, rfl⟩
  · rw [branch_eq_filter]
    rfl

/-- Claim C10: the equality operators on a pipeline stage compare only the
first `size`-of-left-operand elements and never compare lengths — a stage
holding `S` compares equal to every vector (or stage) extending `S`; the
empty stage compares equal to every vector; and, in particular, a stage
holding `[1, 2]` compares equal to `[1, 2, 3]` despite the differing
lengths. -/
theorem equality_compares_only_lhs_elements :
    (∀ (α : Type) [inst : DecidableEq α] (lhs t rhs : List α),
      lhs ++ t = rhs →
        queryableEqVector lhs rhs = true ∧
          queryableEqQueryable lhs rhs = true) ∧
    (∀ rhs : List Int, queryableEqVector ([] : List Int) rhs = true) ∧
    queryableEqVector ([1, 2] : List Int) [1, 2, 3] = true ∧
    ([1, 2] : List Int).length ≠ ([1, 2, 3] : List Int).length := by
  refine ⟨fun α _ lhs t rhs h => ?_, fun rhs => rfl, by decide, by decide⟩
  subst h
  exact ⟨stdEqual_append lhs t, stdEqual_append lhs t⟩

/-- Witness for C10: the stage holding `[1, 2]` compares equal (by both
operators) to the longer vector `[1, 2, 3]`. -/
theorem equality_compares_only_lhs_elements_witness :
    ([1, 2] : List Int) ++ [3] = [1, 2, 3] ∧
      (queryableEqVector ([1, 2] : List Int) [1, 2, 3] = true ∧
        queryableEqQueryable ([1, 2] : List Int) [1, 2, 3] = true) :=
  ⟨by decide,
    equality_compares_only_lhs_elements.1 Int [1, 2] [3] [1, 2, 3] (by decide)⟩

/-- Claim C4: Raises-iff for size-bounded operations — `skip n`, `take n` and
`take_random n` raise the invariant violation exactly when `n` exceeds the
current sequence size (for `take_random`, for every shuffle outcome); on
success `skip n` returns the items after the first `n` and `take n` the first
`n` items; on failure the whole result is the error, never a partial
sequence. -/
theorem size_bounded_raises_iff (α : Type) (n : Nat) (s : List α)
    (indices : List Nat) :
    (raises (skip n s) = true ↔ s.length < n) ∧
    (raises (take n s) = true ↔ s.length < n) ∧
    (raises (take_random indices n s) = true ↔ s.length < n) ∧
    (n ≤ s.length → skip n s = .ok (s.drop n) ∧ take n s = .ok (s.take n)) ∧
    (s.length < n →
      skip n s =
        .error "Skip value must be less than or equal to sequence size." ∧
      take n s =
        .error "Take value must be less than or equal to sequence size." ∧
      take_random indices n s =
        .error
          "Take random value must be less than or equal to sequence size.") :=
  by
  by_cases h : n ≤ s.length <;>
    simp [skip, take, take_random, raises, h] <;> omega

/-- Witness for C4 at `S = [5, 6]`, `n = 1`, shuffle outcome `[1, 0]`. -/
theorem size_bounded_raises_iff_witness :
    1 ≤ ([5, 6] : List Int).length ∧
      (skip 1 ([5, 6] : List Int) = .ok [6] ∧
        take 1 ([5, 6] : List Int) = .ok [5]) :=
  ⟨by decide, (size_bounded_raises_iff Int 1 [5, 6] [1, 0]).2.2.2.1 (by decide)⟩

/-- Claim C5: `trim n`'s guard is inverted — it raises the invariant
violation exactly when the current size exceeds `n`; on success it resizes to
`size - n` in `size_t` arithmetic, so `n` equal to the current size yields
the empty sequence and every other succeeding case (`size < n`) "resizes" to
the wrapped-around count `2^64 - (n - size)`, growing the sequence instead of
trimming it. -/
theorem trim_guard_inverted (α : Type) (n : Nat) (s : List α) (d : α)
    (hn : n < usizeMod) :
    (raises (trim n s d) = true ↔ n < s.length) ∧
    (n = s.length → trim n s d = .ok []) ∧
    (s.length < n →
      trim n s d = .ok (s ++ List.replicate (usizeMod - n) d) ∧
        s.length < (s ++ List.replicate (usizeMod - n) d).length) := by
  have hu : usizeMod = 2 ^ 64 := rfl
  refine ⟨?_, ?_, ?_⟩
  · by_cases h : s.length ≤ n <;> simp [trim, raises, h] <;> omega
  · intro h
    have hg : s.length ≤ n := Nat.le_of_eq h.symm
    have e1 : s.length + usizeMod - n = usizeMod := by omega
    simp [trim, if_pos hg, e1, Nat.mod_self, vecResize]
  · intro h
    have hg : s.length ≤ n := Nat.le_of_lt h
    have e1 : (s.length + usizeMod - n) % usizeMod = usizeMod - (n - s.length) :=
      by
      have h2 : s.length + usizeMod - n < usizeMod := by omega
      rw [Nat.mod_eq_of_lt h2]
      omega
    have hml : ¬(usizeMod - (n - s.length) ≤ s.length) := by omega
    have e2 : usizeMod - (n - s.length) - s.length = usizeMod - n := by omega
    simp only [trim, if_pos hg, e1, vecResize, if_neg hml, e2]
    refine ⟨by trivial, ?_⟩
    simp only [List.length_append, List.length_replicate]
    omega

/-- Witness for C5 at `S = [9, 9]`, `n = 2`: the only well-defined success,
`n` equal to the size, yields the empty sequence. -/
theorem trim_guard_inverted_witness :
    (2 : Nat) = ([9, 9] : List Int).length ∧
      trim 2 ([9, 9] : List Int) 0 = .ok [] :=
  ⟨by decide, (trim_guard_inverted Int 2 [9, 9] 0 (by decide)).2.1 (by decide)⟩

/-- Claim C7: `distinct` returns a duplicate-free sequence containing exactly
the set of input items, arranged in ascending natural order (the `std::set`'s
iteration order, not the original order); in particular
`distinct [1, 1, 2] = [1, 2]`. -/
theorem distinct_ascending_unique :
    (∀ (α : Type) [inst : LinearOrder α] (s : List α),
      (distinct s).Pairwise (· < ·) ∧ (distinct s).Nodup ∧
        ∀ a, a ∈ distinct s ↔ a ∈ s) ∧
    distinct ([1, 1, 2] : List Int) = [1, 2] := by
  refine ⟨fun α _ s => ?_, by decide⟩
  have hpw : (distinct s).Pairwise (· < ·) :=
    foldl_setInsert_pairwise s [] List.Pairwise.nil
  refine ⟨hpw, hpw.imp fun h => ne_of_lt h, fun a => ?_⟩
  rw [distinct, mem_foldl_setInsert]
  simp

/-- Claim C8: `min` and `max` (the selector overloads; the selector-less
overloads are the instance `sel := id`) raise the invariant violation exactly
when the sequence is empty, never returning a default value; on a non-empty
sequence they return a greatest/least item, and ties are resolved first-seen:
the returned item splits the sequence as `pre ++ r :: post` where everything
before it is strictly worse and everything after it is no better under the
comparison used. -/
theorem min_max_raise_iff_empty (α β : Type) [inst : LinearOrder β]
    (sel : α → β) (s : List α) :
    (raises (maxQ sel s) = true ↔ s = []) ∧
    (raises (minQ sel s) = true ↔ s = []) ∧
    (s ≠ [] → ∃ r pre post, maxQ sel s = .ok r ∧ s = pre ++ r :: post ∧
      (∀ y ∈ pre, sel y < sel r) ∧ ∀ y ∈ post, sel y ≤ sel r) ∧
    (s ≠ [] → ∃ r pre post, minQ sel s = .ok r ∧ s = pre ++ r :: post ∧
      (∀ y ∈ pre, sel r < sel y) ∧ ∀ y ∈ post, sel r ≤ sel y) := by
  refine ⟨?_, ?_, ?_, ?_⟩
  · cases s <;> simp [maxQ, raises]
  · cases s <;> simp [minQ, raises]
  · intro hne
    cases s with
    | nil => exact absurd rfl hne
    | cons x xs =>
      rcases maxFold_spec sel xs x with ⟨heq, hall⟩ |
        ⟨pre, post, heq, hlt, hpre, hpost⟩
      · refine ⟨maxFold sel x xs, [], xs, rfl, ?_, by simp, ?_⟩
        · rw [heq]
          rfl
        · simp only [heq]
          exact hall
      · refine ⟨maxFold sel x xs, x :: pre, post, rfl, ?_, ?_, hpost⟩
        · rw [List.cons_append, ← heq]
        · intro y hy
          rcases List.mem_cons.mp hy with rfl | hy'
          · exact hlt
          · exact hpre y hy'
  · intro hne
    cases s with
    | nil => exact absurd rfl hne
    | cons x xs =>
      rcases minFold_spec sel xs x with ⟨heq, hall⟩ |
        ⟨pre, post, heq, hlt, hpre, hpost⟩
      · refine ⟨minFold sel x xs, [], xs, rfl, ?_, by simp, ?_⟩
        · rw [heq]
          rfl
        · simp only [heq]
          exact hall
      · refine ⟨minFold sel x xs, x :: pre, post, rfl, ?_, ?_, hpost⟩
        · rw [List.cons_append, ← heq]
        · intro y hy
          rcases List.mem_cons.mp hy with rfl | hy'
          · exact hlt
          · exact hpre y hy'

/-- Witness for C8 at the non-empty sequence `[2, 1, 3]` with the identity
selector (the selector-less `max`). -/
theorem min_max_raise_iff_empty_witness :
    ([2, 1, 3] : List Int) ≠ [] ∧
      (∃ r pre post, maxQ id ([2, 1, 3] : List Int) = .ok r ∧
        ([2, 1, 3] : List Int) = pre ++ r :: post ∧
        (∀ y ∈ pre, id y < id r) ∧ ∀ y ∈ post, id y ≤ id r) :=
  ⟨by decide, (min_max_raise_iff_empty Int Int id [2, 1, 3]).2.2.1 (by decide)⟩

/-- Counterexample to C3 as stated: `std::sort`'s contract — a permutation of
the input ordered by the `order_by` comparator, which is all the source's
`std::sort(items_, comp)` guarantees — admits, for the input
`[(1,10), (1,20)]` sorted ascending by first component, the output
`[(1,20), (1,10)]`, in which the two items with equal selected values appear
in the reverse of their original relative order. -/
theorem order_by_stability_counterexample :
    orderByAdmissible (fun p : Int × Int => p.1) false [(1, 10), (1, 20)]
        [(1, 20), (1, 10)] ∧
      ¬stableTies (fun p : Int × Int => p.1) [(1, 10), (1, 20)]
        [(1, 20), (1, 10)] := by
  constructor
  · exact ⟨List.Perm.swap (1, 20) (1, 10) [], by decide⟩
  · intro h
    exact absurd (h 1) (by decide)

/-- Claim C3 (amended): `order_by` orders the sequence by the selected value —
every output `std::sort` may produce is a permutation of the input that is
ascending in the selected value when `descending = false` and descending when
`descending = true` — and the contract is satisfiable, a stable insertion
sort under the same comparator being one admissible implementation; but ties
are NOT guaranteed to keep their original relative order, since the source
uses `std::sort`, which is not a stable sort (see the counterexample). -/
theorem order_by_orders_by_selected_value (α β : Type) [inst : LinearOrder β]
    (sel : α → β) (descending : Bool) (inp : List α) :
    orderByAdmissible sel descending inp
        (stable_order_by sel descending inp) ∧
      ∀ out, orderByAdmissible sel descending inp out →
        inp.Perm out ∧
        (descending = false → out.Pairwise fun a b => sel a ≤ sel b) ∧
        (descending = true → out.Pairwise fun a b => sel b ≤ sel a) := by
  constructor
  · constructor
    · exact (stableSortL_perm _ inp).symm
    · have h := stableSortL_pairwise
        (fun a b => !orderByLt sel descending b a)
        (orderByLe_total sel descending)
        (fun a b c => orderByLe_trans sel descending a b c) inp
      exact h.imp fun hx => by simpa using hx
  · rintro out ⟨hperm, hpair⟩
    refine ⟨hperm, ?_, ?_⟩
    · rintro rfl
      exact hpair.imp fun hx => by
        simpa using (orderByLt_false_iff sel false _ _).mp hx
    · rintro rfl
      exact hpair.imp fun hx => by
        simpa using (orderByLt_false_iff sel true _ _).mp hx

/-- Witness for C3 at the sequence `[3, 1, 2]` with the identity selector,
ascending: the stable sort is admissible, the input is a permutation of any
admissible output, an admissible output is ascending, and the stable sort
evaluates to `[1, 2, 3]`. -/
theorem order_by_orders_by_selected_value_witness :
    orderByAdmissible (id : Int → Int) false [3, 1, 2]
        (stable_order_by (id : Int → Int) false [3, 1, 2]) ∧
      ([3, 1, 2] : List Int).Perm
        (stable_order_by (id : Int → Int) false [3, 1, 2]) ∧
      (stable_order_by (id : Int → Int) false [3, 1, 2]).Pairwise
        (fun a b => id a ≤ id b) ∧
      stable_order_by (id : Int → Int) false [3, 1, 2] = [1, 2, 3] :=
  have h := order_by_orders_by_selected_value Int Int id false [3, 1, 2]
  ⟨h.1, (h.2 _ h.1).1, (h.2 _ h.1).2.1 rfl, by decide⟩

end fcpp
